import Mathlib

/-!
Verification development for the OHEditor file-editing tool
(openhands_aci/editor/editor.py and openhands_aci/editor/file_utils.py).

Text is modelled as a list of characters (Python strings are sequences of
code points).  Files in this model use the newline character as the only
line terminator, matching the text read by the editor after universal
newline translation; tab expansion follows Python str.expandtabs with tab
size 8.  All functions are computable and structurally recursive (loops
with data-dependent strides carry an explicit fuel argument that is always
called with a sufficient bound), so concrete runs reduce in the kernel.
-/

namespace OHEditorModel

/-- Text: a Python string as its list of code points. -/
abbrev Str := List Char

/-- Worker for expandtabs: walks the text keeping the current column.
Mirrors Python str.expandtabs(8): a tab becomes spaces up to the next
multiple of 8, a line terminator resets the column, any other character
advances it by one. -/
def expandtabsGo : Nat → Str → Str
  | _, [] => []
  | col, c :: cs =>
    if c = '\t' then
      List.replicate (8 - col % 8) ' ' ++ expandtabsGo (col + (8 - col % 8)) cs
    else if c = '\n' ∨ c = '\r' then
      c :: expandtabsGo 0 cs
    else
      c :: expandtabsGo (col + 1) cs

/-- Python str.expandtabs() with the default tab size of 8. -/
def expandtabs (s : Str) : Str := expandtabsGo 0 s

/-- The number of newline characters in a text. -/
def countNl (s : Str) : Nat := s.countP (fun c => c == '\n')

/-- Python str.split(newline): the segments between newline characters.
The empty string splits to one empty segment, as in Python. -/
def splitNl : Str → List Str
  | [] => [[]]
  | c :: cs =>
    if c = '\n' then [] :: splitNl cs
    else
      match splitNl cs with
      | [] => [[c]]
      | h :: t => (c :: h) :: t

/-- Python newline-join of segments (the inverse of splitNl on
newline-free segments). -/
def joinNl : List Str → Str
  | [] => []
  | [x] => x
  | x :: xs => x ++ '\n' :: joinNl xs

/-- The lines of a text as Python file iteration yields them: each line
keeps its trailing newline; a final fragment without a terminator is a
line of its own; the empty text has no lines. -/
def linesKeep : Str → List Str
  | [] => []
  | c :: cs =>
    if c = '\n' then [c] :: linesKeep cs
    else
      match linesKeep cs with
      | [] => [[c]]
      | l :: ls => (c :: l) :: ls

/-- Python line.rstrip(newline): drops every trailing newline character. -/
def rstripNl (l : Str) : Str := (l.reverse.dropWhile (fun c => c == '\n')).reverse

/-- Python len(s.splitlines()) for texts whose only terminator is the
newline character: the number of lines, a trailing terminator opening no
further line.  Equal to the length of linesKeep. -/
def splitlinesCount (s : Str) : Nat := (linesKeep s).length

/-- All match positions of a needle in a text, scanning every index from
the left; records the end-of-text position as well when the needle is
empty, exactly as successive Python str.find calls from position idx + 1
do.  The index argument is the absolute position of the head of the
remaining text. -/
def occAux (needle : Str) : Str → Nat → List Nat
  | [], i => if needle.isPrefixOf ([] : Str) then [i] else []
  | c :: cs, i =>
    (if needle.isPrefixOf (c :: cs) then [i] else []) ++ occAux needle cs (i + 1)

/-- The ascending list of all (overlapping) match positions of needle in s. -/
def occStarts (needle s : Str) : List Nat := occAux needle s 0

/-- The 1-indexed starting line numbers of all overlapping occurrences of
needle in text, one entry per match position (editor.py lines 117-126
compute exactly this via repeated str.find). -/
def occLines (text needle : Str) : List Nat :=
  (occStarts needle text).map (fun p => countNl (text.take p) + 1)

/-- Python s.find(sub, start) scanning the remaining text; the index
argument is the absolute position of the head of the remaining text. -/
def pyFindGo (needle : Str) : Str → Nat → Option Nat
  | [], i => if needle.isPrefixOf ([] : Str) then some i else none
  | c :: cs, i =>
    if needle.isPrefixOf (c :: cs) then some i else pyFindGo needle cs (i + 1)

/-- Python s.find(sub, start): the least match position at or after start,
none when there is none (Python returns -1); a start beyond the end of the
text never matches. -/
def pyFind (needle s : Str) (start : Nat) : Option Nat :=
  if start ≤ s.length then pyFindGo needle (s.drop start) start else none

/-- The while-loop of editor.py lines 118-126 (also lines 173-181 and
193-200): repeatedly find the needle, record the position, continue the
search one past the found position.  Fuel bounds the iteration count; the
wrapper supplies enough for every run. -/
def findLoopAux (needle s : Str) : Nat → Nat → List Nat
  | 0, _ => []
  | fuel + 1, start =>
    match pyFind needle s start with
    | none => []
    | some i => i :: findLoopAux needle s fuel (i + 1)

/-- All match positions as the editor's find loop enumerates them. -/
def findLoop (needle s : Str) : List Nat := findLoopAux needle s (s.length + 2) 0

/-- Python s.count(sub) worker for a non-empty needle: leftmost
non-overlapping matches, skipping the needle's length after each match.
Fuel is at least the text length on every call. -/
def countAux (needle : Str) : Nat → Str → Nat
  | 0, _ => 0
  | fuel + 1, s =>
    match s with
    | [] => 0
    | c :: cs =>
      if needle.isPrefixOf (c :: cs) then 1 + countAux needle fuel ((c :: cs).drop needle.length)
      else countAux needle fuel cs

/-- Python s.count(sub): non-overlapping occurrence count; an empty needle
counts len(s) + 1 as in Python. -/
def countPy (s needle : Str) : Nat :=
  if needle = [] then s.length + 1 else countAux needle s.length s

/-- Python s.replace(old, new) worker: leftmost non-overlapping
replacement; an empty old inserts new before every character and at the
end, as in Python.  Fuel is at least the text length plus one. -/
def replaceAllAux (old new : Str) : Nat → Str → Str
  | 0, s => s
  | fuel + 1, s =>
    if old = [] then
      new ++ (match s with
        | [] => []
        | c :: cs => c :: replaceAllAux old new fuel cs)
    else
      match s with
      | [] => []
      | c :: cs =>
        if old.isPrefixOf (c :: cs) then new ++ replaceAllAux old new fuel ((c :: cs).drop old.length)
        else c :: replaceAllAux old new fuel cs

/-- Python s.replace(old, new). -/
def replaceAll (s old new : Str) : Str := replaceAllAux old new (s.length + 1) s

/-- read_file(path, start_line, end_line) of editor.py lines 498-508: keep
the 1-indexed lines from start_line to end_line inclusive, strip each
line's trailing newline, join with newlines.  end_line = none reads to the
end of the file. -/
def readLines (content : Str) (startL : Nat) (endL : Option Nat) : Str :=
  let ls := linesKeep content
  let window := match endL with
    | some e => (ls.take e).drop (startL - 1)
    | none => ls.drop (startL - 1)
  joinNl (window.map rstripNl)

/-- The error taxonomy the editor surfaces (exceptions.py is summarised by
the spec's section 7; ToolError messages are told apart by their cause). -/
inductive Err
  | invalidPath
  | invalidViewRange
  | invalidInsertLine
  | invalidNewStr
  | noMatch
  | ambiguous (lineNumbers : List Nat)
  | noHistory
  | ioError
deriving DecidableEq, Repr

instance {ε α : Type} [DecidableEq ε] [DecidableEq α] : DecidableEq (Except ε α) := fun a b =>
  match a, b with
  | .error e, .error f =>
    if h : e = f then .isTrue (by rw [h]) else .isFalse (by simp [h])
  | .ok x, .ok y =>
    if h : x = y then .isTrue (by rw [h]) else .isFalse (by simp [h])
  | .error _, .ok _ => .isFalse (by simp)
  | .ok _, .error _ => .isFalse (by simp)

/-- Python sub in s: substring containment, true for the empty needle. -/
def containsSub (needle s : Str) : Bool := (pyFindGo needle s 0).isSome

/-- find_string_in_file of file_utils.py lines 17-29 worker: walk the
lines (as file iteration yields them, terminators kept), recording the
1-indexed number of every line that contains the needle as a substring. -/
def fsifGo (needle : Str) : List Str → Nat → List Nat
  | [], _ => []
  | l :: ls, n =>
    (if containsSub needle l then [n] else []) ++ fsifGo needle ls (n + 1)

/-- find_string_in_file(path, search_str) of file_utils.py lines 17-29 on
the file's content. -/
def findStringInFile (content needle : Str) : List Nat :=
  fsifGo needle (linesKeep content) 1

/-- The small-file branch of OHEditor.str_replace (editor.py lines
105-157) as a pure function of the file's content: expand tabs in the
needle, the replacement and the whole content, fail on zero occurrences,
fail listing the match line numbers on several, otherwise return the new
content and the history snapshot (the tab-expanded pre-edit content)
that the editor pushes. -/
def strReplaceSmall (content old0 new0 : Str) : Except Err (Str × Str) :=
  let old := expandtabs old0
  let nw := expandtabs new0
  let fc := expandtabs content
  let occurrences := countPy fc old
  if occurrences = 0 then .error .noMatch
  else if 1 < occurrences then
    .error (.ambiguous ((findLoop old fc).map (fun i => countNl (fc.take i) + 1)))
  else .ok (replaceAll fc old nw, fc)

/-- Scan one chunk text: absolute starting line numbers of every
occurrence, computed as chunk_start_line + (newlines before the match
position), exactly as editor.py lines 173-181 do via its find loop
(findLoop enumerates the same positions, see findLoop_eq_occStarts). -/
def scanChunk (old chunkText : Str) (chunkStart : Nat) : List Nat :=
  (findLoop old chunkText).map (fun pos => chunkStart + countNl (chunkText.take pos))

/-- The chunk text of the accumulated lines: joined then tab-expanded
(editor.py line 170).  The Python code appends lines at the end of
current_chunk; the model keeps the chunk reversed (newest line first), so
the chunk text is the reversed accumulator joined. -/
def chunkTextOf (revChunk : List Str) : Str := expandtabs revChunk.reverse.flatten

/-- State of the streaming occurrence loop of editor.py lines 159-200:
the reversed current chunk, its length, chunk_start_line, the occurrences
recorded so far, and the running line number. -/
structure ScanSt where
  revChunk : List Str
  clen : Nat
  chunkStart : Nat
  occs : List Nat
  lineNo : Nat
deriving DecidableEq, Repr

/-- The streaming loop over a list of lines (editor.py lines 166-187),
carrying the state components as plain arguments: for each line, append
it; once 1000 lines have accumulated, scan the chunk, keep the last
min(len, needle line count + 1) lines as overlap and restart the chunk
numbering there; the running line number always advances.  The source
guards the scan with an old_str-in-chunk_text membership test; scanning
unconditionally is equivalent, since the scan of a chunk without the
needle records nothing. -/
def streamSteps (old : Str) :
    List Str → List Str → Nat → Nat → List Nat → Nat → ScanSt
  | [], revChunk, clen, chunkStart, occs, lineNo => ⟨revChunk, clen, chunkStart, occs, lineNo⟩
  | line :: rest, revChunk, clen, chunkStart, occs, lineNo =>
    let revC := line :: revChunk
    let len := clen + 1
    if 1000 ≤ len then
      let occs2 := occs ++ scanChunk old (chunkTextOf revC) chunkStart
      let overlap := min len (splitlinesCount old + 1)
      let revC2 := revC.take overlap
      streamSteps old rest revC2 revC2.length (lineNo - revC2.length + 1) occs2 (lineNo + 1)
    else
      streamSteps old rest revC len chunkStart occs (lineNo + 1)

/-- Processing of the final partial chunk (editor.py lines 189-200). -/
def streamFinish (old : Str) (st : ScanSt) : List Nat :=
  if st.revChunk = [] then st.occs
  else st.occs ++ scanChunk old (chunkTextOf st.revChunk) st.chunkStart

/-- The large-file streaming occurrence scan of editor.py lines 159-200 on
the file's lines. -/
def streamScan (lines : List Str) (old : Str) : List Nat :=
  streamFinish old (streamSteps old lines [] 0 1 [] 1)

/-- The large-file branch of OHEditor.str_replace (editor.py lines
159-275) as a pure function of the file's content: the streaming scan
locates occurrences; on a unique one, the window of SNIPPET_CONTEXT_WINDOW
lines around it is read back (trailing newlines stripped per line),
tab-expanded, rewritten, given a trailing newline when it lost one, and
spliced between the untouched leading and trailing lines.  W stands for
SNIPPET_CONTEXT_WINDOW (config.py is not part of the sources; the window
is kept as a parameter).  Returns the new content and the pushed history
snapshot, which is only the pre-edit window (line 251). -/
def strReplaceLarge (W : Nat) (content old0 new0 : Str) : Except Err (Str × Str) :=
  let old := expandtabs old0
  let nw := expandtabs new0
  let ls := linesKeep content
  let occurrences := streamScan ls old
  if occurrences = [] then .error .noMatch
  else if 1 < occurrences.length then .error (.ambiguous occurrences)
  else
    let occLine := occurrences.headD 1
    let startL := max 1 (occLine - W)
    let endL := occLine + W + countNl nw
    let fc := expandtabs (readLines content startL (some endL))
    let nfc := replaceAll fc old nw
    let nfc2 := if nfc ≠ [] ∧ nfc.getLast? ≠ some '\n' then nfc ++ ['\n'] else nfc
    .ok ((ls.take (startL - 1)).flatten ++ nfc2 ++ (ls.drop endL).flatten, fc)

/-- OHEditor.insert (editor.py lines 366-428) as a pure function of the
file's content: tab-expand content and new text, validate the insertion
line against the length of the newline-split of the content, splice the
new lines in, and return the new content with the pushed snapshot (the
tab-expanded pre-edit content).  The content argument is what read_file
returns; for files under the 1 MiB threshold that is the file's text
verbatim (read_text), which is the regime the claims address. -/
def insertContent (content : Str) (insertLine : Int) (new0 : Str) : Except Err (Str × Str) :=
  let ft := expandtabs content
  let nw := expandtabs new0
  let ls := splitNl ft
  let numLines : Int := ls.length
  if insertLine < 0 ∨ numLines < insertLine then .error .invalidInsertLine
  else
    let k := insertLine.toNat
    .ok (joinNl (ls.take k ++ splitNl nw ++ ls.drop k), ft)

/-- The view-range handling of OHEditor.view for files (editor.py lines
319-355): an absent or empty range shows the whole file; a two-element
range must have a first element at least 1 and a second element that is
-1 or at least the first; the selected window is then read back.  No
bound is compared against the file's line count. -/
def viewFile (content : Str) (range? : Option (List Int)) : Except Err Str :=
  match range? with
  | none => .ok content
  | some [] => .ok content
  | some [s, e] =>
    if s < 1 then .error .invalidViewRange
    else if e ≠ -1 ∧ e < s then .error .invalidViewRange
    else .ok (readLines content s.toNat (if e = -1 then none else some e.toNat))
  | some _ => .error .invalidViewRange

/-- The structured part of CLIResult that the claims mention: the
previous-existence flag and the old/new content fields (results.py is
summarised by the spec's section 3; output strings and snippets are
display only and carry no further state). -/
structure Res where
  prevExist : Bool
  oldContent : Option Str
  newContent : Option Str
deriving DecidableEq, Repr

/-- Paths are opaque identifiers; validate_path's absoluteness check and
directory handling concern the file system name space, not the editing
semantics modelled here. -/
abbrev FPath := Nat

/-- Association-list lookup for the files and history maps. -/
def lookupA {α : Type} : List (FPath × α) → FPath → Option α
  | [], _ => none
  | (q, v) :: l, p => if p = q then some v else lookupA l p

/-- Association-list update-or-insert. -/
def setA {α : Type} : List (FPath × α) → FPath → α → List (FPath × α)
  | [], p, v => [(p, v)]
  | (q, w) :: l, p, v => if p = q then (q, v) :: l else (q, w) :: setA l p v

/-- The editor's state: the file system's files and the per-path history
stacks of OHEditor._file_history.  A stack lists the most recent snapshot
first (Python appends at the end and pops from the end). -/
structure EditorState where
  files : List (FPath × Str)
  hist : List (FPath × List Str)
deriving DecidableEq, Repr

/-- The history stack of a path; absent paths have the empty stack
(_file_history is a defaultdict(list)). -/
def histGet (s : EditorState) (p : FPath) : List Str :=
  (lookupA s.hist p).getD []

/-- A command request as OHEditor.__call__ receives it, with the
command-specific arguments that reach the dispatch (a missing required
argument is rejected before dispatch and is typed away here; new_str of
str_replace stays optional, None meaning the empty replacement). -/
inductive Cmd
  | view (p : FPath) (range? : Option (List Int))
  | create (p : FPath) (fileText : Str)
  | strReplace (p : FPath) (oldStr : Str) (newStr : Option Str)
  | insert (p : FPath) (insertLine : Int) (newStr : Str)
  | undo (p : FPath)
deriving DecidableEq, Repr

/-- The path a command addresses. -/
def cmdPath : Cmd → FPath
  | .view p _ => p
  | .create p _ => p
  | .strReplace p _ _ => p
  | .insert p _ _ => p
  | .undo p => p

/-- One command against the editor (OHEditor.__call__, editor.py lines
47-96, with validate_path lines 430-460): validation errors and operation
failures carry the state unchanged (every raise in the source happens
before any mutation of the file or of the history); a success returns the
new state and the result record.  str_replace picks the small-file or the
streaming branch by the 1 MiB size threshold of editor.py line 109; W is
the SNIPPET_CONTEXT_WINDOW of the streaming branch. -/
def step (W : Nat) (s : EditorState) (c : Cmd) : Except (EditorState × Err) (EditorState × Res) :=
  match c with
  | .view p range? =>
    match lookupA s.files p with
    | none => .error (s, .invalidPath)
    | some content =>
      match viewFile content range? with
      | .error e => .error (s, e)
      | .ok _ => .ok (s, ⟨true, none, none⟩)
  | .create p t =>
    match lookupA s.files p with
    | some _ => .error (s, .invalidPath)
    | none => .ok (⟨setA s.files p t, setA s.hist p (t :: histGet s p)⟩, ⟨false, none, some t⟩)
  | .strReplace p old new? =>
    match lookupA s.files p with
    | none => .error (s, .invalidPath)
    | some content =>
      if new? = some old then .error (s, .invalidNewStr)
      else
        match (if content.length < 1048576
               then strReplaceSmall content old (new?.getD [])
               else strReplaceLarge W content old (new?.getD [])) with
        | .error e => .error (s, e)
        | .ok (n, snap) =>
          .ok (⟨setA s.files p n, setA s.hist p (snap :: histGet s p)⟩, ⟨true, some snap, some n⟩)
  | .insert p k t =>
    match lookupA s.files p with
    | none => .error (s, .invalidPath)
    | some content =>
      match insertContent content k t with
      | .error e => .error (s, e)
      | .ok (n, snap) =>
        .ok (⟨setA s.files p n, setA s.hist p (snap :: histGet s p)⟩, ⟨true, some snap, some n⟩)
  | .undo p =>
    match lookupA s.files p with
    | none => .error (s, .invalidPath)
    | some content =>
      match histGet s p with
      | [] => .error (s, .noHistory)
      | prev :: rest =>
        .ok (⟨setA s.files p prev, setA s.hist p rest⟩, ⟨true, some (expandtabs content), some prev⟩)

/-- Run a command list from the empty initial state (a fresh OHEditor over
an empty file system); a failing command leaves the state as it was. -/
def runCmds (W : Nat) (cmds : List Cmd) : EditorState :=
  cmds.foldl (fun s c => match step W s c with
    | .ok (s2, _) => s2
    | .error (s2, _) => s2) ⟨[], []⟩

/-- Whether a command is one of the three mutating commands. -/
def isMutating : Cmd → Bool
  | .create _ _ => true
  | .strReplace _ _ _ => true
  | .insert _ _ _ => true
  | _ => false

/-- A step outcome's success flag. -/
def stepOk {ε α : Type} : Except ε α → Bool
  | .ok _ => true
  | .error _ => false

/-- The finally block of editor.py lines 273-275: whatever the outcome, a
still-present temporary file is unlinked. -/
def finallyUnlink (o : Except Err Str × Str × Bool) : Except Err Str × Str × Bool :=
  (o.1, o.2.1, false)

/-- Python path.write_text(newText) (used by write_file, editor.py lines
357-364): the file is opened for writing, which truncates it, and the
text is then written.  An I/O error striking after k characters have been
written (ioFail = some k) therefore leaves the first k characters of the
new text in the file -- a prefix, not the pre-call bytes; ioFail = none
is an undisturbed write.  Returns the outcome and the file's resulting
content. -/
def writeTextFS (newText : Str) (ioFail : Option Nat) : Except Err Unit × Str :=
  match ioFail with
  | none => (.ok (), newText)
  | some k => (.error .ioError, newText.take k)

/-- The file-system effect of one str_replace call including the scoped
temporary file of the streaming branch (editor.py lines 222-275), with an
injected I/O failure during the rewrite: the returned triple is the
operation's result, the target file's content after the call, and whether
a .tmp file is left behind.  Both error branches raise before anything is
written.  The small branch rewrites the target in place through
write_file, i.e. a truncating path.write_text with no temporary file, so
an interrupted write leaves a prefix of the new content in the target.
The streaming branch's try body writes only to the temporary file: a
failure there leaves the target untouched with the partial temporary
present, the finally block (lines 273-275) unlinks a still-present
temporary on every exit path, and a completed body renames it over the
target. -/
def strReplaceFS (W : Nat) (content old0 new0 : Str) (ioFail : Option Nat) :
    Except Err Str × Str × Bool :=
  if content.length < 1048576 then
    match strReplaceSmall content old0 new0 with
    | .error e => (.error e, content, false)
    | .ok (n, _) =>
      match writeTextFS n ioFail with
      | (.ok _, f) => (.ok n, f, false)
      | (.error e, f) => (.error e, f, false)
  else
    match strReplaceLarge W content old0 new0 with
    | .error e => (.error e, content, false)
    | .ok (n, _) =>
      finallyUnlink (match ioFail with
        | none => (.ok n, n, false)
        | some _ => (.error .ioError, content, true))

/-- The file-system effect of one insert call (editor.py lines 366-428):
validation failures raise before the write; the rewrite is an in-place
truncating path.write_text via write_file, with no temporary file, so an
interrupted write leaves a prefix of the new content. -/
def insertFS (content : Str) (k : Int) (new0 : Str) (ioFail : Option Nat) :
    Except Err Str × Str × Bool :=
  match insertContent content k new0 with
  | .error e => (.error e, content, false)
  | .ok (n, _) =>
    match writeTextFS n ioFail with
    | (.ok _, f) => (.ok n, f, false)
    | (.error e, f) => (.error e, f, false)

/-! ### Concrete inputs used by the closed theorems -/

/-- A two-character line used by the streaming counterexamples. -/
def aLine : Str := ['a', '\n']

/-- The line holding the unique needle occurrence in the boundary file. -/
def xLine : Str := ['x', '\n']

/-- n repetitions of the line aLine, flattened. -/
def abRep : Nat → Str
  | 0 => []
  | n + 1 => 'a' :: '\n' :: abRep n

/-- A 1000-line file whose single occurrence of the needle sits on line
1000, the last line of the first full streaming chunk. -/
def c2lines : List Str := List.replicate 999 aLine ++ [xLine]

/-- The same file as one text. -/
def c2content : Str := c2lines.flatten

/-- A 12-line file with a unique occurrence of foo on line 6, used to
exercise the streaming replace path and undo after it. -/
def c1content : Str :=
  (List.replicate 5 aLine ++ [['f', 'o', 'o', '\n']] ++ List.replicate 6 ['b', '\n']).flatten

/-- The content the streaming replace produces on c1content. -/
def c1new : Str :=
  (List.replicate 5 aLine ++ [['b', 'a', 'r', '\n']] ++ List.replicate 6 ['b', '\n']).flatten

/-- The window snapshot (lines 2 to 10 of c1content, newline-joined with
no trailing terminator) that the streaming replace pushes as history. -/
def c1snap : Str :=
  ['a', '\n', 'a', '\n', 'a', '\n', 'a', '\n', 'f', 'o', 'o', '\n', 'b', '\n', 'b', '\n', 'b', '\n', 'b']

/-! ### The find loop enumerates exactly the match positions -/

theorem occAux_head_rest (needle : Str) (hne : needle ≠ []) :
    ∀ (rem : Str) (i0 i : Nat) (rest : List Nat),
      occAux needle rem i0 = i :: rest →
      i0 ≤ i ∧ i ≤ i0 + rem.length ∧ rest = occAux needle (rem.drop (i - i0 + 1)) (i + 1) := by
  intro rem
  induction rem with
  | nil =>
    intro i0 i rest h
    obtain ⟨c, cs⟩ := List.exists_cons_of_ne_nil hne
    simp [occAux, List.isPrefixOf] at h
  | cons c cs ih =>
    intro i0 i rest h
    by_cases hp : needle.isPrefixOf (c :: cs)
    · simp only [occAux, hp, if_pos, List.singleton_append, List.cons.injEq] at h
      obtain ⟨rfl, rfl⟩ := h
      refine ⟨Nat.le_refl _, by simp, ?_⟩
      simp [occAux]
    · simp only [occAux, hp, if_neg, Bool.false_eq_true, not_false_iff, List.nil_append] at h
      obtain ⟨h1, h2, h3⟩ := ih (i0 + 1) i rest h
      refine ⟨by omega, ?_, ?_⟩
      · simp only [List.length_cons]
        omega
      · have hd : (c :: cs).drop (i - i0 + 1) = cs.drop (i - i0) := by
          have he : i - i0 + 1 = (i - i0 - 1 + 1) + 1 := by omega
          have he2 : i - i0 - 1 + 1 = i - i0 := by omega
          rw [he, List.drop_succ_cons, he2]
        have hidx : i - (i0 + 1) + 1 = i - i0 := by omega
        rw [h3, hidx, hd]

theorem pyFindGo_eq_head (needle : Str) :
    ∀ (rem : Str) (i : Nat), pyFindGo needle rem i = (occAux needle rem i).head? := by
  intro rem
  induction rem with
  | nil =>
    intro i
    by_cases h : needle.isPrefixOf ([] : Str) <;> simp [pyFindGo, occAux, h]
  | cons c cs ih =>
    intro i
    by_cases h : needle.isPrefixOf (c :: cs) <;> simp [pyFindGo, occAux, h, ih]

theorem findLoopAux_eq (needle : Str) (hne : needle ≠ []) (s : Str) :
    ∀ (fuel start : Nat), s.length + 2 - start ≤ fuel →
      findLoopAux needle s fuel start = occAux needle (s.drop start) start := by
  intro fuel
  induction fuel with
  | zero =>
    intro start h
    have hs : s.length ≤ start := by omega
    rw [List.drop_eq_nil_of_le hs]
    obtain ⟨c, cs⟩ := List.exists_cons_of_ne_nil hne
    simp [findLoopAux, occAux, List.isPrefixOf]
  | succ fuel ih =>
    intro start h
    by_cases hstart : start ≤ s.length
    · rw [findLoopAux]
      rw [show pyFind needle s start = (occAux needle (s.drop start) start).head? by
        rw [pyFind, if_pos hstart, pyFindGo_eq_head]]
      cases hocc : occAux needle (s.drop start) start with
      | nil => simp
      | cons i rest =>
        simp only [List.head?_cons]
        obtain ⟨h1, h2, h3⟩ := occAux_head_rest needle hne (s.drop start) start i rest hocc
        rw [List.length_drop] at h2
        have hi : i ≤ s.length := by omega
        have hfuel : s.length + 2 - (i + 1) ≤ fuel := by omega
        rw [ih (i + 1) hfuel]
        have hidx : start + (i - start + 1) = i + 1 := by omega
        rw [h3, List.drop_drop, hidx]
    · rw [findLoopAux, pyFind, if_neg hstart]
      rw [List.drop_eq_nil_of_le (by omega)]
      obtain ⟨c, cs⟩ := List.exists_cons_of_ne_nil hne
      simp [occAux, List.isPrefixOf]

theorem occAux_nil_needle :
    ∀ (rem : Str) (i : Nat), occAux ([] : Str) rem i = List.range' i (rem.length + 1) := by
  intro rem
  induction rem with
  | nil => intro i; simp [occAux, List.isPrefixOf, List.range']
  | cons c cs ih => intro i; simp [occAux, List.isPrefixOf, List.range', ih]

theorem findLoopAux_nil_needle (s : Str) :
    ∀ (fuel start : Nat), s.length + 2 - start ≤ fuel →
      findLoopAux ([] : Str) s fuel start = List.range' start (s.length + 1 - start) := by
  intro fuel
  induction fuel with
  | zero =>
    intro start h
    rw [findLoopAux, show s.length + 1 - start = 0 by omega]
    rfl
  | succ fuel ih =>
    intro start h
    by_cases hstart : start ≤ s.length
    · have hfind : pyFind ([] : Str) s start = some start := by
        rw [pyFind, if_pos hstart]
        cases s.drop start <;> simp [pyFindGo, List.isPrefixOf]
      rw [findLoopAux, hfind]
      simp only []
      rw [ih (start + 1) (by omega)]
      rw [show s.length + 1 - start = (s.length + 1 - (start + 1)) + 1 by omega]
      rfl
    · rw [findLoopAux, pyFind, if_neg hstart, show s.length + 1 - start = 0 by omega]
      rfl

theorem findLoop_eq_occStarts (needle s : Str) : findLoop needle s = occStarts needle s := by
  by_cases h : needle = []
  · subst h
    rw [findLoop, findLoopAux_nil_needle s _ 0 (by omega), occStarts, occAux_nil_needle]
    simp
  · rw [findLoop, findLoopAux_eq needle h s _ 0 (by omega), occStarts, List.drop_zero]

/-! ### Tab expansion basics -/

theorem tab_notMem_expandtabsGo (s : Str) :
    ∀ col, '\t' ∉ expandtabsGo col s := by
  induction s with
  | nil => intro col; simp [expandtabsGo]
  | cons c cs ih =>
    intro col
    simp only [expandtabsGo]
    split
    · intro hmem
      rcases List.mem_append.mp hmem with hsp | hrec
      · have := List.eq_of_mem_replicate hsp
        simp at this
      · exact ih _ hrec
    · rename_i hct
      split
      · rename_i hnl
        intro hmem
        rcases List.mem_cons.mp hmem with hce | hrec
        · rcases hnl with rfl | rfl <;> simp at hce
        · exact ih 0 hrec
      · intro hmem
        rcases List.mem_cons.mp hmem with hce | hrec
        · exact hct hce.symm
        · exact ih (col + 1) hrec

theorem tab_notMem_expandtabs (s : Str) : '\t' ∉ expandtabs s :=
  tab_notMem_expandtabsGo s 0

theorem expandtabsGo_eq_self (s : Str) :
    ∀ col, (∀ c ∈ s, c ≠ '\t') → expandtabsGo col s = s := by
  induction s with
  | nil => intro col _; rfl
  | cons c cs ih =>
    intro col h
    have hc : c ≠ '\t' := h c (List.mem_cons_self c cs)
    have hcs : ∀ x ∈ cs, x ≠ '\t' := fun x hx => h x (List.mem_cons_of_mem c hx)
    simp only [expandtabsGo]
    split
    · rename_i hct; exact absurd hct hc
    · split
      · rw [ih 0 hcs]
      · rw [ih (col + 1) hcs]

theorem countNl_expandtabsGo (s : Str) :
    ∀ col, countNl (expandtabsGo col s) = countNl s := by
  induction s with
  | nil => intro col; rfl
  | cons c cs ih =>
    intro col
    simp only [expandtabsGo, countNl] at ih ⊢
    split
    · rename_i hct
      rw [List.countP_append, List.countP_cons]
      rw [show (List.replicate (8 - col % 8) ' ').countP (fun c => c == '\n') = 0 by
        simp [List.countP_eq_zero]]
      subst hct
      simp [ih]
    · split
      · simp only [List.countP_cons, ih]
      · simp only [List.countP_cons, ih]

theorem countNl_expandtabs (s : Str) : countNl (expandtabs s) = countNl s :=
  countNl_expandtabsGo s 0

/-! ### Newline splitting and joining -/

theorem splitNl_ne_nil (s : Str) : splitNl s ≠ [] := by
  cases s with
  | nil => simp [splitNl]
  | cons c cs =>
    by_cases h : c = '\n'
    · simp [splitNl, h]
    · simp only [splitNl, if_neg h]
      cases hs : splitNl cs <;> simp

theorem splitNl_no_nl (s : Str) : ∀ p ∈ splitNl s, '\n' ∉ p := by
  induction s with
  | nil => intro p hp; simp [splitNl] at hp; simp [hp]
  | cons c cs ih =>
    intro p hp
    by_cases h : c = '\n'
    · simp only [splitNl, if_pos h, List.mem_cons] at hp
      rcases hp with rfl | hp
      · simp
      · exact ih p hp
    · simp only [splitNl, if_neg h] at hp
      cases hs : splitNl cs with
      | nil => exact absurd hs (splitNl_ne_nil cs)
      | cons q qs =>
        rw [hs] at hp
        rcases List.mem_cons.mp hp with rfl | hp2
        · intro hmem
          rcases List.mem_cons.mp hmem with rfl | hq
          · exact h rfl
          · exact ih q (hs ▸ List.mem_cons_self q qs) hq
        · exact ih p (hs ▸ List.mem_cons_of_mem q hp2)

theorem splitNl_subset (s : Str) : ∀ p ∈ splitNl s, ∀ c ∈ p, c ∈ s := by
  induction s with
  | nil =>
    intro p hp c hc
    simp [splitNl] at hp
    subst hp
    simp at hc
  | cons a cs ih =>
    intro p hp c hc
    by_cases h : a = '\n'
    · simp only [splitNl, if_pos h, List.mem_cons] at hp
      rcases hp with rfl | hp
      · simp at hc
      · exact List.mem_cons_of_mem a (ih p hp c hc)
    · simp only [splitNl, if_neg h] at hp
      cases hs : splitNl cs with
      | nil => exact absurd hs (splitNl_ne_nil cs)
      | cons q qs =>
        rw [hs] at hp
        rcases List.mem_cons.mp hp with rfl | hp2
        · rcases List.mem_cons.mp hc with rfl | hq
          · exact List.mem_cons_self c cs
          · exact List.mem_cons_of_mem a (ih q (hs ▸ List.mem_cons_self q qs) c hq)
        · exact List.mem_cons_of_mem a (ih p (hs ▸ List.mem_cons_of_mem q hp2) c hc)

theorem splitNl_append_nl (r : Str) : ∀ (x : Str), '\n' ∉ x →
    splitNl (x ++ '\n' :: r) = x :: splitNl r := by
  intro x
  induction x with
  | nil => intro _; simp [splitNl]
  | cons c cs ih =>
    intro hx
    have hc : c ≠ '\n' := fun hcc => hx (hcc ▸ List.mem_cons_self c cs)
    have hcs : '\n' ∉ cs := fun hm => hx (List.mem_cons_of_mem c hm)
    rw [List.cons_append]
    simp only [splitNl, if_neg hc]
    rw [ih hcs]

theorem splitNl_of_no_nl (x : Str) (hx : '\n' ∉ x) : splitNl x = [x] := by
  induction x with
  | nil => rfl
  | cons c cs ih =>
    have hc : c ≠ '\n' := fun hcc => hx (hcc ▸ List.mem_cons_self c cs)
    have hcs : '\n' ∉ cs := fun hm => hx (List.mem_cons_of_mem c hm)
    simp only [splitNl, if_neg hc, ih hcs]

theorem splitNl_joinNl (ls : List Str) (hne : ls ≠ [])
    (h : ∀ p ∈ ls, '\n' ∉ p) : splitNl (joinNl ls) = ls := by
  induction ls with
  | nil => exact absurd rfl hne
  | cons x xs ih =>
    cases xs with
    | nil => exact splitNl_of_no_nl x (h x (List.mem_cons_self x []))
    | cons y ys =>
      rw [show joinNl (x :: y :: ys) = x ++ '\n' :: joinNl (y :: ys) from rfl]
      rw [splitNl_append_nl _ x (h x (List.mem_cons_self x (y :: ys)))]
      rw [ih (by simp) (fun p hp => h p (List.mem_cons_of_mem x hp))]

theorem splitNl_length (s : Str) : (splitNl s).length = countNl s + 1 := by
  induction s with
  | nil => rfl
  | cons c cs ih =>
    by_cases h : c = '\n'
    · subst h
      have ih2 : (splitNl cs).length = List.countP (fun c => c == '\n') cs + 1 := ih
      simp [splitNl, countNl, List.countP_cons, ih2]
    · simp only [splitNl, if_neg h]
      cases hs : splitNl cs with
      | nil => exact absurd hs (splitNl_ne_nil cs)
      | cons q qs =>
        rw [hs] at ih
        have hco : (c == '\n') = false := by simp [h]
        simp only [countNl, List.countP_cons, hco, List.length_cons] at ih ⊢
        simpa using ih

theorem joinNl_chars (ls : List Str) :
    ∀ c ∈ joinNl ls, c = '\n' ∨ ∃ p ∈ ls, c ∈ p := by
  induction ls with
  | nil => intro c hc; simp [joinNl] at hc
  | cons x xs ih =>
    intro c hc
    cases xs with
    | nil =>
      right
      exact ⟨x, List.mem_cons_self x [], hc⟩
    | cons y ys =>
      rw [show joinNl (x :: y :: ys) = x ++ '\n' :: joinNl (y :: ys) from rfl] at hc
      rcases List.mem_append.mp hc with hx | htail
      · exact Or.inr ⟨x, List.mem_cons_self x (y :: ys), hx⟩
      · rcases List.mem_cons.mp htail with rfl | hj
        · exact Or.inl rfl
        · rcases ih c hj with hnl | ⟨p, hp, hcp⟩
          · exact Or.inl hnl
          · exact Or.inr ⟨p, List.mem_cons_of_mem x hp, hcp⟩

/-! ### Characters of a replacement -/

theorem replaceAllAux_chars (old new : Str) :
    ∀ (fuel : Nat) (s : Str) (c : Char), c ∈ replaceAllAux old new fuel s → c ∈ s ∨ c ∈ new := by
  intro fuel
  induction fuel with
  | zero => intro s c hc; exact Or.inl hc
  | succ fuel ih =>
    intro s c hc
    by_cases ho : old = []
    · cases s with
      | nil =>
        simp only [replaceAllAux, if_pos ho] at hc
        rcases List.mem_append.mp hc with hn | hrest
        · exact Or.inr hn
        · simp at hrest
      | cons a as =>
        simp only [replaceAllAux, if_pos ho] at hc
        rcases List.mem_append.mp hc with hn | hrest
        · exact Or.inr hn
        · rcases List.mem_cons.mp hrest with rfl | hr
          · exact Or.inl (List.mem_cons_self c as)
          · rcases ih as c hr with h1 | h2
            · exact Or.inl (List.mem_cons_of_mem a h1)
            · exact Or.inr h2
    · cases s with
      | nil =>
        simp only [replaceAllAux, if_neg ho] at hc
        simp at hc
      | cons a as =>
        simp only [replaceAllAux, if_neg ho] at hc
        by_cases hp : old.isPrefixOf (a :: as)
        · rw [if_pos hp] at hc
          rcases List.mem_append.mp hc with hn | hr
          · exact Or.inr hn
          · rcases ih _ c hr with h1 | h2
            · exact Or.inl (List.mem_of_mem_drop h1)
            · exact Or.inr h2
        · rw [if_neg hp] at hc
          rcases List.mem_cons.mp hc with rfl | hr
          · exact Or.inl (List.mem_cons_self c as)
          · rcases ih as c hr with h1 | h2
            · exact Or.inl (List.mem_cons_of_mem a h1)
            · exact Or.inr h2

theorem replaceAll_chars (s old new : Str) (c : Char) :
    c ∈ replaceAll s old new → c ∈ s ∨ c ∈ new :=
  replaceAllAux_chars old new (s.length + 1) s c

/-! ### The streaming scan on the 1000-line boundary file -/

theorem streamSteps_append (old : Str) (xs ys : List Str) :
    ∀ r c s o n, streamSteps old (xs ++ ys) r c s o n =
      (match streamSteps old xs r c s o n with
       | ⟨r2, c2, s2, o2, n2⟩ => streamSteps old ys r2 c2 s2 o2 n2) := by
  induction xs with
  | nil => intro r c s o n; rfl
  | cons l ls ih =>
    intro r c s o n
    rw [List.cons_append]
    by_cases h : 1000 ≤ c + 1
    · simp only [streamSteps, if_pos h, ih]
    · simp only [streamSteps, if_neg h, ih]

theorem streamSteps_noChunk (old : Str) (lines : List Str) :
    ∀ (revC : List Str) (clen cs : Nat) (occs : List Nat) (n : Nat),
      clen + lines.length < 1000 →
      streamSteps old lines revC clen cs occs n =
        ⟨lines.reverse ++ revC, clen + lines.length, cs, occs, n + lines.length⟩ := by
  induction lines with
  | nil => intro revC clen cs occs n _; simp [streamSteps]
  | cons l ls ih =>
    intro revC clen cs occs n h
    have hlt : ¬ 1000 ≤ clen + 1 := by
      simp only [List.length_cons] at h
      omega
    show (if 1000 ≤ clen + 1 then _ else _) = _
    rw [if_neg hlt]
    rw [ih (l :: revC) (clen + 1) cs occs (n + 1) (by simp at h ⊢; omega)]
    simp only [List.length_cons, List.reverse_cons, List.append_assoc, List.singleton_append]
    congr 1 <;> omega

theorem flatten_replicate_aLine : ∀ n, (List.replicate n aLine).flatten = abRep n := by
  intro n
  induction n with
  | zero => rfl
  | succ n ih => simp only [List.replicate_succ, List.flatten_cons, ih]; rfl

theorem abRep_chars : ∀ n, ∀ c ∈ abRep n, c = 'a' ∨ c = '\n' := by
  intro n
  induction n with
  | zero => intro c hc; simp [abRep] at hc
  | succ n ih =>
    intro c hc
    rcases List.mem_cons.mp hc with rfl | hc2
    · exact Or.inl rfl
    · rcases List.mem_cons.mp hc2 with rfl | hc3
      · exact Or.inr rfl
      · exact ih c hc3

theorem abRep_length : ∀ n, (abRep n).length = 2 * n := by
  intro n
  induction n with
  | zero => rfl
  | succ n ih => simp [abRep, ih]; omega

theorem countNl_abRep : ∀ n, countNl (abRep n) = n := by
  intro n
  induction n with
  | zero => rfl
  | succ n ih =>
    simp only [abRep, countNl, List.countP_cons] at ih ⊢
    simp [ih]

theorem x_notMem_abRep (n : Nat) : 'x' ∉ abRep n := by
  intro hmem
  rcases abRep_chars n 'x' hmem with h | h <;> simp at h

theorem tab_notMem_abRep_x (n : Nat) : ∀ c ∈ abRep n ++ xLine, c ≠ '\t' := by
  intro c hc
  rcases List.mem_append.mp hc with h | h
  · rcases abRep_chars n c h with rfl | rfl <;> simp
  · rcases List.mem_cons.mp h with rfl | h2
    · simp
    · rcases List.mem_cons.mp h2 with rfl | h3
      · simp
      · simp at h3

theorem expandtabs_abRep_x (n : Nat) : expandtabs (abRep n ++ xLine) = abRep n ++ xLine :=
  expandtabsGo_eq_self _ 0 (tab_notMem_abRep_x n)

theorem occAux_x_skip (rest : Str) : ∀ (s : Str) (i : Nat), 'x' ∉ s →
    occAux ['x'] (s ++ rest) i = occAux ['x'] rest (i + s.length) := by
  intro s
  induction s with
  | nil => intro i _; simp
  | cons c cs ih =>
    intro i h
    have hc : c ≠ 'x' := fun hcc => h (hcc ▸ List.mem_cons_self c cs)
    have hcs : 'x' ∉ cs := fun hm => h (List.mem_cons_of_mem c hm)
    have hpre : (['x'] : Str).isPrefixOf (c :: (cs ++ rest)) = false := by
      simp [List.isPrefixOf]
      exact fun hcc => hc hcc.symm
    rw [List.cons_append]
    show (if (['x'] : Str).isPrefixOf (c :: (cs ++ rest)) = true then [i] else []) ++
      occAux ['x'] (cs ++ rest) (i + 1) = _
    rw [hpre]
    simp only [Bool.false_eq_true, if_false, List.nil_append]
    rw [ih (i + 1) hcs]
    rw [show i + (c :: cs).length = i + 1 + cs.length from by simp only [List.length_cons]; omega]

theorem occAux_xLine (i : Nat) : occAux ['x'] xLine i = [i] := by
  show occAux ['x'] ('x' :: '\n' :: []) i = [i]
  simp [occAux, List.isPrefixOf]

theorem occStarts_abRep_x (n : Nat) : occStarts ['x'] (abRep n ++ xLine) = [2 * n] := by
  rw [occStarts, occAux_x_skip xLine (abRep n) 0 (x_notMem_abRep n), occAux_xLine,
    abRep_length]
  simp

theorem take_abRep (n : Nat) (rest : Str) : (abRep n ++ rest).take (2 * n) = abRep n := by
  rw [show 2 * n = (abRep n).length from (abRep_length n).symm, List.take_left]

theorem scanChunk_abRep (n cs : Nat) :
    scanChunk ['x'] (abRep n ++ xLine) cs = [cs + n] := by
  rw [scanChunk, findLoop_eq_occStarts, occStarts_abRep_x]
  simp only [List.map_cons, List.map_nil]
  rw [take_abRep, countNl_abRep]

theorem chunkTextOf_x_rep (n : Nat) :
    chunkTextOf (xLine :: List.replicate n aLine) = abRep n ++ xLine := by
  rw [chunkTextOf, List.reverse_cons, List.reverse_replicate, List.flatten_append,
    flatten_replicate_aLine]
  simp only [List.flatten_cons, List.flatten_nil, List.append_nil]
  exact expandtabs_abRep_x n

theorem streamSteps_c2_chunkStep :
    streamSteps ['x'] [xLine] (List.replicate 999 aLine) 999 1 [] 1000 =
      ⟨[xLine, aLine], 2, 999, [1000], 1001⟩ := by
  simp only [streamSteps]
  rw [if_pos (by omega : (1000 : Nat) ≤ 999 + 1)]
  rw [show min (999 + 1) (splitlinesCount ['x'] + 1) = 2 from by decide]
  rw [show (xLine :: List.replicate 999 aLine).take 2 = [xLine, aLine] from by decide]
  rw [chunkTextOf_x_rep, scanChunk_abRep]
  decide

theorem streamScan_c2 : streamScan c2lines ['x'] = [1000, 1000] := by
  rw [streamScan, c2lines, streamSteps_append]
  rw [streamSteps_noChunk ['x'] (List.replicate 999 aLine) [] 0 1 [] 1
    (by rw [List.length_replicate]; omega)]
  simp only [List.reverse_replicate, List.length_replicate, List.append_nil]
  show streamFinish ['x'] (streamSteps ['x'] [xLine] (List.replicate 999 aLine) 999 1 [] 1000) = _
  rw [streamSteps_c2_chunkStep]
  rw [show streamFinish ['x'] ⟨[xLine, aLine], 2, 999, [1000], 1001⟩ = [1000, 1000] from by decide]

theorem c2content_eq : c2content = abRep 999 ++ xLine := by
  rw [c2content, c2lines, List.flatten_append, flatten_replicate_aLine]
  simp [List.flatten_cons]

theorem occLines_c2 : occLines c2content ['x'] = [1000] := by
  rw [occLines, c2content_eq, occStarts_abRep_x]
  simp only [List.map_cons, List.map_nil]
  rw [take_abRep, countNl_abRep]

theorem linesKeep_abRep_append (rest : Str) :
    ∀ n, linesKeep (abRep n ++ rest) = List.replicate n aLine ++ linesKeep rest := by
  intro n
  induction n with
  | zero => simp [abRep]
  | succ n ih =>
    show linesKeep ('a' :: '\n' :: (abRep n ++ rest)) = _
    rw [show linesKeep ('a' :: '\n' :: (abRep n ++ rest))
        = aLine :: linesKeep (abRep n ++ rest) from by
      simp [linesKeep, aLine]]
    rw [ih, List.replicate_succ]
    rfl

theorem linesKeep_c2 : linesKeep c2content = c2lines := by
  rw [c2content_eq, c2lines, linesKeep_abRep_append]
  rw [show linesKeep xLine = [xLine] from by decide]

theorem countAux_x_skip (rest : Str) :
    ∀ (s : Str) (fuel : Nat), 'x' ∉ s → s.length ≤ fuel →
      countAux ['x'] fuel (s ++ rest) = countAux ['x'] (fuel - s.length) rest := by
  intro s
  induction s with
  | nil => intro fuel _ _; simp
  | cons c cs ih =>
    intro fuel h hf
    have hc : c ≠ 'x' := fun hcc => h (hcc ▸ List.mem_cons_self c cs)
    have hcs : 'x' ∉ cs := fun hm => h (List.mem_cons_of_mem c hm)
    cases fuel with
    | zero => simp at hf
    | succ fuel =>
      have hpre : (['x'] : Str).isPrefixOf (c :: (cs ++ rest)) = false := by
        simp [List.isPrefixOf]
        exact fun hcc => hc hcc.symm
      rw [List.cons_append]
      show (if (['x'] : Str).isPrefixOf (c :: (cs ++ rest)) = true
        then 1 + countAux ['x'] fuel ((c :: (cs ++ rest)).drop (['x'] : Str).length)
        else countAux ['x'] fuel (cs ++ rest)) = _
      rw [hpre]
      simp only [Bool.false_eq_true, if_false]
      rw [ih fuel hcs (by simp at hf; omega)]
      congr 1
      simp only [List.length_cons]
      omega

theorem countPy_c2 : countPy c2content ['x'] = 1 := by
  rw [countPy, if_neg (by simp)]
  rw [show c2content.length = 2000 from by
    rw [c2content_eq, List.length_append, abRep_length]; rfl]
  rw [c2content_eq, countAux_x_skip xLine (abRep 999) 2000 (x_notMem_abRep 999)
    (by rw [abRep_length]; omega)]
  rw [abRep_length]
  decide

theorem expandtabs_c2 : expandtabs c2content = c2content := by
  rw [c2content_eq]
  exact expandtabs_abRep_x 999

theorem strReplaceSmall_c2_ok : stepOk (strReplaceSmall c2content ['x'] ['y']) = true := by
  rw [strReplaceSmall]
  rw [show expandtabs ['x'] = ['x'] from by decide]
  rw [show expandtabs ['y'] = ['y'] from by decide]
  rw [expandtabs_c2, countPy_c2]
  simp [stepOk]

theorem strReplaceLarge_c2 (W : Nat) :
    strReplaceLarge W c2content ['x'] ['y'] = .error (.ambiguous [1000, 1000]) := by
  rw [strReplaceLarge]
  rw [show expandtabs ['x'] = ['x'] from by decide]
  rw [linesKeep_c2, streamScan_c2]
  simp


/-! ### The editor state machine -/

theorem lookupA_setA {α : Type} (l : List (FPath × α)) (p : FPath) (v : α) :
    ∀ q, lookupA (setA l p v) q = if q = p then some v else lookupA l q := by
  induction l with
  | nil =>
    intro q
    by_cases h : q = p <;> simp [setA, lookupA, h]
  | cons a l ih =>
    intro q
    obtain ⟨r, w⟩ := a
    simp only [setA]
    by_cases hp : p = r
    · rw [if_pos hp]
      subst hp
      by_cases hq : q = p <;> simp [lookupA, hq]
    · rw [if_neg hp]
      simp only [lookupA]
      by_cases hq : q = r
      · subst hq
        have hqp : q ≠ p := fun hqq => hp hqq.symm
        simp [hqp]
      · rw [if_neg hq, if_neg hq]
        exact ih q

theorem histGet_set (files2 : List (FPath × Str)) (s : EditorState) (p : FPath) (v : List Str) :
    ∀ q, histGet ⟨files2, setA s.hist p v⟩ q = if q = p then v else histGet s q := by
  intro q
  simp only [histGet, lookupA_setA]
  by_cases h : q = p <;> simp [h]

theorem step_error_eq (W : Nat) (s : EditorState) (c : Cmd) (s2 : EditorState) (e : Err)
    (h : step W s c = .error (s2, e)) : s2 = s := by
  cases c with
  | view p range? =>
    simp only [step] at h
    cases hl : lookupA s.files p with
    | none =>
      rw [hl] at h
      dsimp only at h
      simp only [Except.error.injEq, Prod.mk.injEq] at h
      exact h.1.symm
    | some content =>
      rw [hl] at h
      dsimp only at h
      cases hv : viewFile content range? with
      | error e2 =>
        rw [hv] at h
        dsimp only at h
        simp only [Except.error.injEq, Prod.mk.injEq] at h
        exact h.1.symm
      | ok out =>
        rw [hv] at h
        dsimp only at h
        simp at h
  | create p t =>
    simp only [step] at h
    cases hl : lookupA s.files p with
    | none =>
      rw [hl] at h
      dsimp only at h
      simp at h
    | some content =>
      rw [hl] at h
      dsimp only at h
      simp only [Except.error.injEq, Prod.mk.injEq] at h
      exact h.1.symm
  | strReplace p old new? =>
    simp only [step] at h
    cases hl : lookupA s.files p with
    | none =>
      rw [hl] at h
      dsimp only at h
      simp only [Except.error.injEq, Prod.mk.injEq] at h
      exact h.1.symm
    | some content =>
      rw [hl] at h
      dsimp only at h
      by_cases hn : new? = some old
      · rw [if_pos hn] at h
        simp only [Except.error.injEq, Prod.mk.injEq] at h
        exact h.1.symm
      · rw [if_neg hn] at h
        cases hr : (if content.length < 1048576
            then strReplaceSmall content old (new?.getD [])
            else strReplaceLarge W content old (new?.getD [])) with
        | error e2 =>
          rw [hr] at h
          dsimp only at h
          simp only [Except.error.injEq, Prod.mk.injEq] at h
          exact h.1.symm
        | ok pr =>
          obtain ⟨n, snap⟩ := pr
          rw [hr] at h
          dsimp only at h
          simp at h
  | insert p k t =>
    simp only [step] at h
    cases hl : lookupA s.files p with
    | none =>
      rw [hl] at h
      dsimp only at h
      simp only [Except.error.injEq, Prod.mk.injEq] at h
      exact h.1.symm
    | some content =>
      rw [hl] at h
      dsimp only at h
      cases hr : insertContent content k t with
      | error e2 =>
        rw [hr] at h
        dsimp only at h
        simp only [Except.error.injEq, Prod.mk.injEq] at h
        exact h.1.symm
      | ok pr =>
        obtain ⟨n, snap⟩ := pr
        rw [hr] at h
        dsimp only at h
        simp at h
  | undo p =>
    simp only [step] at h
    cases hl : lookupA s.files p with
    | none =>
      rw [hl] at h
      dsimp only at h
      simp only [Except.error.injEq, Prod.mk.injEq] at h
      exact h.1.symm
    | some content =>
      rw [hl] at h
      dsimp only at h
      cases hh : histGet s p with
      | nil =>
        rw [hh] at h
        dsimp only at h
        simp only [Except.error.injEq, Prod.mk.injEq] at h
        exact h.1.symm
      | cons prev rest =>
        rw [hh] at h
        dsimp only at h
        simp at h

/-- No history without a file: every path with a non-empty history stack
has a file (only create brings a file into being, every mutating command
requires one, and nothing deletes one). -/
def fhInv (s : EditorState) : Prop :=
  ∀ p, lookupA s.files p = none → histGet s p = []

theorem fhInv_step_ok (W : Nat) (s : EditorState) (c : Cmd) (s2 : EditorState) (r : Res)
    (hinv : fhInv s) (h : step W s c = .ok (s2, r)) : fhInv s2 := by
  cases c with
  | view p range? =>
    simp only [step] at h
    cases hl : lookupA s.files p with
    | none => rw [hl] at h; dsimp only at h; simp at h
    | some content =>
      rw [hl] at h
      dsimp only at h
      cases hv : viewFile content range? with
      | error e2 => rw [hv] at h; dsimp only at h; simp at h
      | ok out =>
        rw [hv] at h
        dsimp only at h
        simp only [Except.ok.injEq, Prod.mk.injEq] at h
        rw [← h.1]
        exact hinv
  | create p t =>
    simp only [step] at h
    cases hl : lookupA s.files p with
    | some content => rw [hl] at h; dsimp only at h; simp at h
    | none =>
      rw [hl] at h
      dsimp only at h
      simp only [Except.ok.injEq, Prod.mk.injEq] at h
      rw [← h.1]
      intro q hq
      rw [lookupA_setA] at hq
      by_cases hqp : q = p
      · rw [if_pos hqp] at hq; simp at hq
      · rw [if_neg hqp] at hq
        rw [histGet_set]
        rw [if_neg hqp]
        exact hinv q hq
  | strReplace p old new? =>
    simp only [step] at h
    cases hl : lookupA s.files p with
    | none => rw [hl] at h; dsimp only at h; simp at h
    | some content =>
      rw [hl] at h
      dsimp only at h
      by_cases hn : new? = some old
      · rw [if_pos hn] at h; simp at h
      · rw [if_neg hn] at h
        cases hr : (if content.length < 1048576
            then strReplaceSmall content old (new?.getD [])
            else strReplaceLarge W content old (new?.getD [])) with
        | error e2 => rw [hr] at h; dsimp only at h; simp at h
        | ok pr =>
          obtain ⟨n, snap⟩ := pr
          rw [hr] at h
          dsimp only at h
          simp only [Except.ok.injEq, Prod.mk.injEq] at h
          rw [← h.1]
          intro q hq
          rw [lookupA_setA] at hq
          by_cases hqp : q = p
          · rw [if_pos hqp] at hq; simp at hq
          · rw [if_neg hqp] at hq
            rw [histGet_set, if_neg hqp]
            exact hinv q hq
  | insert p k t =>
    simp only [step] at h
    cases hl : lookupA s.files p with
    | none => rw [hl] at h; dsimp only at h; simp at h
    | some content =>
      rw [hl] at h
      dsimp only at h
      cases hr : insertContent content k t with
      | error e2 => rw [hr] at h; dsimp only at h; simp at h
      | ok pr =>
        obtain ⟨n, snap⟩ := pr
        rw [hr] at h
        dsimp only at h
        simp only [Except.ok.injEq, Prod.mk.injEq] at h
        rw [← h.1]
        intro q hq
        rw [lookupA_setA] at hq
        by_cases hqp : q = p
        · rw [if_pos hqp] at hq; simp at hq
        · rw [if_neg hqp] at hq
          rw [histGet_set, if_neg hqp]
          exact hinv q hq
  | undo p =>
    simp only [step] at h
    cases hl : lookupA s.files p with
    | none => rw [hl] at h; dsimp only at h; simp at h
    | some content =>
      rw [hl] at h
      dsimp only at h
      cases hh : histGet s p with
      | nil => rw [hh] at h; dsimp only at h; simp at h
      | cons prev rest =>
        rw [hh] at h
        dsimp only at h
        simp only [Except.ok.injEq, Prod.mk.injEq] at h
        rw [← h.1]
        intro q hq
        rw [lookupA_setA] at hq
        by_cases hqp : q = p
        · rw [if_pos hqp] at hq; simp at hq
        · rw [if_neg hqp] at hq
          rw [histGet_set, if_neg hqp]
          exact hinv q hq

theorem fhInv_runCmds (W : Nat) (cmds : List Cmd) : fhInv (runCmds W cmds) := by
  rw [runCmds]
  have hbase : fhInv ⟨[], []⟩ := by
    intro p _
    rfl
  generalize hs : (⟨[], []⟩ : EditorState) = s0
  rw [hs] at hbase
  clear hs
  induction cmds generalizing s0 with
  | nil => exact hbase
  | cons c cs ih =>
    rw [List.foldl_cons]
    apply ih
    cases hstep : step W s0 c with
    | ok pr =>
      obtain ⟨s2, r⟩ := pr
      dsimp only
      exact fhInv_step_ok W s0 c s2 r hbase hstep
    | error pr =>
      obtain ⟨s2, e⟩ := pr
      dsimp only
      rw [step_error_eq W s0 c s2 e hstep]
      exact hbase

/-! ### Characterizations of the pure operations -/

/-- strReplaceSmall in terms of the Python count and the position scan:
the branch structure of editor.py lines 109-133 with the find loop
replaced by the all-positions scan. -/
theorem strReplaceSmall_eq (content old0 new0 : Str) :
    strReplaceSmall content old0 new0 =
      (if countPy (expandtabs content) (expandtabs old0) = 0 then .error .noMatch
       else if 1 < countPy (expandtabs content) (expandtabs old0) then
         .error (.ambiguous (occLines (expandtabs content) (expandtabs old0)))
       else .ok (replaceAll (expandtabs content) (expandtabs old0) (expandtabs new0),
                 expandtabs content)) := by
  simp only [strReplaceSmall, occLines, findLoop_eq_occStarts]

/-- insertContent in terms of the line count of the newline-split. -/
theorem insertContent_eq (content : Str) (k : Int) (new0 : Str) :
    insertContent content k new0 =
      (if k < 0 ∨ ((splitNl (expandtabs content)).length : Int) < k then
        .error .invalidInsertLine
       else .ok (joinNl ((splitNl (expandtabs content)).take k.toNat
           ++ splitNl (expandtabs new0) ++ (splitNl (expandtabs content)).drop k.toNat),
         expandtabs content)) := by
  rfl

/-! ### Claim C3 -/

/-- C3 counterexample: in the one-line file aaaa, old_str aa has N = 2
non-overlapping occurrences (Python count), but the error reports the
starting line numbers of three overlapping matches, not exactly N = 2
entries, refuting "reporting exactly the N line numbers". -/
theorem c3_counterexample :
    strReplaceSmall ['a', 'a', 'a', 'a'] ['a', 'a'] ['b'] = .error (.ambiguous [1, 1, 1]) ∧
    countPy (expandtabs ['a', 'a', 'a', 'a']) (expandtabs ['a', 'a']) = 2 ∧
    ¬ ([1, 1, 1] : List Nat).length = 2 := by
  decide

/-- C3 amended: with N the number of non-overlapping (Python count)
occurrences of the tab-expanded old_str, str_replace on a small file fails
with the NoMatch error when N = 0, fails with the AmbiguousMatch error
listing the 1-indexed starting line numbers of every overlapping
occurrence (possibly more than N entries) when N > 1, and succeeds
performing the replacement exactly when N = 1. -/
theorem c3_match_count_behavior (content old0 new0 : Str) :
    strReplaceSmall content old0 new0 =
      (if countPy (expandtabs content) (expandtabs old0) = 0 then .error .noMatch
       else if 1 < countPy (expandtabs content) (expandtabs old0) then
         .error (.ambiguous (occLines (expandtabs content) (expandtabs old0)))
       else .ok (replaceAll (expandtabs content) (expandtabs old0) (expandtabs new0),
                 expandtabs content)) ∧
    (stepOk (strReplaceSmall content old0 new0) =
      (countPy (expandtabs content) (expandtabs old0) == 1)) := by
  refine ⟨strReplaceSmall_eq content old0 new0, ?_⟩
  rw [strReplaceSmall_eq]
  rcases Nat.lt_trichotomy (countPy (expandtabs content) (expandtabs old0)) 1 with h | h | h
  · have h0 : countPy (expandtabs content) (expandtabs old0) = 0 := by omega
    rw [if_pos h0, h0]
    rfl
  · rw [if_neg (by omega), if_neg (by omega), h]
    rfl
  · rw [if_neg (by omega), if_pos h]
    have : (countPy (expandtabs content) (expandtabs old0) == 1) = false := by
      simp
      omega
    rw [this]
    rfl

/-! ### Claim C5 -/

/-- C5 counterexample: on the three-line file a, b, c, the view range
[5, 6] is beyond the file's line count, yet view accepts it and returns
the empty window instead of failing with the InvalidParameter error. -/
theorem c5_counterexample :
    viewFile ['a', '\n', 'b', '\n', 'c'] (some [5, 6]) = .ok [] ∧
    countNl ['a', '\n', 'b', '\n', 'c'] + 1 = 3 := by
  decide

/-- C5 amended: for a two-element view range, view validates only
start at least 1 and (end = -1 or end at least start); it fails with the
InvalidParameter error on view_range exactly when one of those two checks
fails, and otherwise streams the requested window whether or not the
bounds lie within the file's line count (out-of-range windows are
accepted and give the existing, possibly empty, intersection). -/
theorem c5_view_range_validation (content : Str) (s e : Int) :
    (viewFile content (some [s, e]) =
      (if s < 1 then .error .invalidViewRange
       else if e ≠ -1 ∧ e < s then .error .invalidViewRange
       else .ok (readLines content s.toNat (if e = -1 then none else some e.toNat)))) ∧
    (viewFile content (some [s, e]) = .error .invalidViewRange ↔
      (s < 1 ∨ (e ≠ -1 ∧ e < s))) := by
  refine ⟨rfl, ?_⟩
  show (if s < 1 then _ else if e ≠ -1 ∧ e < s then _ else _) = _ ↔ _
  by_cases h1 : s < 1
  · rw [if_pos h1]
    simp [h1]
  · rw [if_neg h1]
    by_cases h2 : e ≠ -1 ∧ e < s
    · rw [if_pos h2]
      simp [h1, h2]
    · rw [if_neg h2]
      simp [h1, h2]

/-! ### Claim C6 -/

/-- C6 counterexample: the file a, b, c with a trailing newline has 3
lines (and 3 newline characters), yet insert accepts insert_line = 4 --
the bound the code enforces is the length of the newline-split, which
counts one extra empty segment after a trailing newline -- and splices the
new text after that phantom empty line, producing a blank line before it.
The second conjunct shows the in-range scenario from the claim. -/
theorem c6_counterexample :
    insertContent ['a', '\n', 'b', '\n', 'c', '\n'] 4 ['m', 'i', 'd'] =
      .ok (['a', '\n', 'b', '\n', 'c', '\n', '\n', 'm', 'i', 'd'],
           ['a', '\n', 'b', '\n', 'c', '\n']) ∧
    countNl ['a', '\n', 'b', '\n', 'c', '\n'] = 3 ∧
    insertContent ['a', '\n', 'b', '\n', 'c'] 1 ['m', 'i', 'd'] =
      .ok (['a', '\n', 'm', 'i', 'd', '\n', 'b', '\n', 'c'],
           ['a', '\n', 'b', '\n', 'c']) := by
  decide

/-- C6 amended: insert validates 0 <= insert_line <= N where N is the
number of newline characters plus one (the length of the newline split,
which for a file with a trailing newline is one more than its line
count); within that range the resulting line sequence is the first
insert_line split segments, then the tab-expanded new lines, then the
remaining segments, and outside it insert fails with the InvalidParameter
error on insert_line. -/
theorem c6_insert_semantics (content : Str) (k : Int) (new0 : Str) :
    match insertContent content k new0 with
    | .error e => e = .invalidInsertLine ∧ (k < 0 ∨ ((countNl content : Int) + 1) < k)
    | .ok (n, snap) =>
        0 ≤ k ∧ k ≤ ((countNl content : Int) + 1) ∧
        snap = expandtabs content ∧
        splitNl n = (splitNl (expandtabs content)).take k.toNat
          ++ splitNl (expandtabs new0) ++ (splitNl (expandtabs content)).drop k.toNat := by
  have hlen : ((splitNl (expandtabs content)).length : Int) = (countNl content : Int) + 1 := by
    rw [splitNl_length, countNl_expandtabs]
    push_cast
    ring
  rw [insertContent_eq]
  by_cases hk : k < 0 ∨ ((splitNl (expandtabs content)).length : Int) < k
  · rw [if_pos hk]
    dsimp only
    exact ⟨rfl, by rw [← hlen]; exact hk⟩
  · rw [if_neg hk]
    dsimp only
    push_neg at hk
    refine ⟨hk.1, by rw [← hlen]; exact hk.2, rfl, ?_⟩
    apply splitNl_joinNl
    · intro hnil
      have : splitNl (expandtabs new0) = [] := by
        rcases List.append_eq_nil.mp hnil with ⟨h1, h2⟩
        exact (List.append_eq_nil.mp h1).2
      exact splitNl_ne_nil _ this
    · intro p hp
      rcases List.mem_append.mp hp with hp1 | hp2
      · rcases List.mem_append.mp hp1 with hpa | hpb
        · exact splitNl_no_nl _ p (List.take_subset _ _ hpa)
        · exact splitNl_no_nl _ p hpb
      · exact splitNl_no_nl _ p (List.drop_subset _ _ hp2)

/-! ### Claim C7 -/

/-- C7 counterexample: the needle containing a line terminator occurs in
the file ab, cd starting on line 1 (match position 1 of the text), but
find_string_in_file, which tests each line separately, reports no line at
all. -/
theorem c7_counterexample :
    findStringInFile ['a', 'b', '\n', 'c', 'd'] ['b', '\n', 'c'] = [] ∧
    occStarts ['b', '\n', 'c'] ['a', 'b', '\n', 'c', 'd'] = [1] := by
  decide

theorem fsifGo_eq (needle : Str) :
    ∀ (ls : List Str) (n : Nat), fsifGo needle ls n =
      (List.range' n ls.length).filter
        (fun i => containsSub needle (ls.getD (i - n) [])) := by
  intro ls
  induction ls with
  | nil => intro n; rfl
  | cons l ls ih =>
    intro n
    show (if containsSub needle l then [n] else []) ++ fsifGo needle ls (n + 1) = _
    rw [List.length_cons]
    rw [show List.range' n (ls.length + 1) = n :: List.range' (n + 1) ls.length from rfl]
    rw [List.filter_cons]
    have hgn : ((l :: ls).getD (n - n) []) = l := by
      simp
    rw [ih (n + 1)]
    have hcong : ∀ i ∈ List.range' (n + 1) ls.length,
        (containsSub needle ((l :: ls).getD (i - n) [])) =
          (containsSub needle (ls.getD (i - (n + 1)) [])) := by
      intro i hi
      have hge : n + 1 ≤ i := (List.mem_range'_1.mp hi).1
      have : i - n = (i - (n + 1)) + 1 := by omega
      rw [this]
      rfl
    rw [List.filter_congr hcong]
    by_cases hc : containsSub needle l
    · rw [hgn]
      rw [if_pos hc]
      simp [hc]
    · rw [hgn]
      rw [if_neg hc]
      simp [hc]

/-- C7 amended: find_string_in_file returns, in ascending order and at
most once per line, the 1-indexed numbers of exactly those lines that
contain the needle as a substring of the single line (terminator
included); occurrences whose matched text spans several lines are not
detected, since each line is tested separately. -/
theorem c7_per_line_containment (content needle : Str) :
    findStringInFile content needle =
      (List.range' 1 (linesKeep content).length).filter
        (fun i => containsSub needle ((linesKeep content).getD (i - 1) [])) := by
  rw [findStringInFile, fsifGo_eq]

/-! ### Claim C10 -/

/-- C10: a successful small-file str_replace and a successful insert
produce the edit applied to the tab-expanded whole content -- no tab
character survives anywhere in the result -- and the history snapshot
pushed for undo is the tab-expanded pre-edit content, not the original
bytes. -/
theorem c10_whole_file_tab_expansion (content old0 new0 : Str) (k : Int) (t : Str) :
    (match strReplaceSmall content old0 new0 with
     | .ok (n, snap) =>
         n = replaceAll (expandtabs content) (expandtabs old0) (expandtabs new0) ∧
         snap = expandtabs content ∧ '\t' ∉ n ∧ '\t' ∉ snap
     | .error _ => True) ∧
    (match insertContent content k t with
     | .ok (n, snap) => snap = expandtabs content ∧ '\t' ∉ n ∧ '\t' ∉ snap
     | .error _ => True) := by
  constructor
  · rw [strReplaceSmall_eq]
    by_cases h0 : countPy (expandtabs content) (expandtabs old0) = 0
    · rw [if_pos h0]
      exact True.intro
    · rw [if_neg h0]
      by_cases h1 : 1 < countPy (expandtabs content) (expandtabs old0)
      · rw [if_pos h1]
        exact True.intro
      · rw [if_neg h1]
        dsimp only
        refine ⟨rfl, rfl, ?_, tab_notMem_expandtabs content⟩
        intro hmem
        rcases replaceAll_chars _ _ _ _ hmem with hin | hin
        · exact tab_notMem_expandtabs content hin
        · exact tab_notMem_expandtabs new0 hin
  · rw [insertContent_eq]
    by_cases hk : k < 0 ∨ ((splitNl (expandtabs content)).length : Int) < k
    · rw [if_pos hk]
      exact True.intro
    · rw [if_neg hk]
      dsimp only
      refine ⟨rfl, ?_, tab_notMem_expandtabs content⟩
      intro hmem
      rcases joinNl_chars _ '\t' hmem with hnl | ⟨p, hp, hcp⟩
      · simp at hnl
      · rcases List.mem_append.mp hp with hp1 | hp2
        · rcases List.mem_append.mp hp1 with hpa | hpb
          · exact tab_notMem_expandtabs content
              (splitNl_subset _ p (List.take_subset _ _ hpa) '\t' hcp)
          · exact tab_notMem_expandtabs t (splitNl_subset _ p hpb '\t' hcp)
        · exact tab_notMem_expandtabs content
            (splitNl_subset _ p (List.drop_subset _ _ hp2) '\t' hcp)

/-! ### Claim C4 -/

/-- C4 counterexample: on the two-character file ab, str_replace of a by
x computes the new content xb, but the rewrite is an in-place truncating
write, so an I/O error after one written character leaves the file as x
-- neither the pre-call content ab nor the new content -- and the failed
call is not byte-identical to the pre-call state.  Likewise an insert
whose write is interrupted at the start leaves the file empty. -/
theorem c4_counterexample :
    strReplaceFS 4 ['a', 'b'] ['a'] ['x'] (some 1) = (.error .ioError, ['x'], false) ∧
    ¬ (['x'] : Str) = ['a', 'b'] ∧
    insertFS ['a'] 1 ['b'] (some 0) = (.error .ioError, [], false) ∧
    ¬ ([] : Str) = ['a'] := by
  decide

/-- C4 amended: validation failures of str_replace and insert (zero
matches, multiple matches, invalid insert_line) are raised before any
write and leave the file byte-identical to its pre-call content; the
streaming str_replace branch writes only to its temporary file, so every
failure of that branch -- an I/O error during the rewrite included --
also leaves the target byte-identical; and no .tmp file remains on any
exit path of either command.  The small-file str_replace branch and
insert, however, rewrite the target in place with a truncating
whole-file write and no temporary, so an I/O error during that write
leaves a prefix of the new content rather than the pre-call bytes. -/
theorem c4_amended_atomicity (W : Nat) (content old0 new0 : Str) (k : Int) (t : Str)
    (ioFail : Option Nat) :
    (strReplaceFS W content old0 new0 ioFail).2.2 = false ∧
    (insertFS content k t ioFail).2.2 = false ∧
    (match strReplaceSmall content old0 new0 with
     | .error _ => content.length < 1048576 →
        (strReplaceFS W content old0 new0 ioFail).2.1 = content
     | .ok _ => True) ∧
    (match strReplaceLarge W content old0 new0 with
     | .error _ => 1048576 ≤ content.length →
        (strReplaceFS W content old0 new0 ioFail).2.1 = content
     | .ok _ => True) ∧
    (match insertContent content k t with
     | .error _ => (insertFS content k t ioFail).2.1 = content
     | .ok _ => True) ∧
    (1048576 ≤ content.length →
      (match strReplaceFS W content old0 new0 ioFail with
       | (.error _, fileAfter, _) => fileAfter = content
       | (.ok _, _, _) => True)) ∧
    (match strReplaceSmall content old0 new0, ioFail with
     | .ok (n, _), some j => content.length < 1048576 →
        (strReplaceFS W content old0 new0 ioFail).2.1 = n.take j
     | _, _ => True) ∧
    (match insertContent content k t, ioFail with
     | .ok (n, _), some j => (insertFS content k t ioFail).2.1 = n.take j
     | _, _ => True) := by
  by_cases hsz : content.length < 1048576
  · have hsz2 : ¬ 1048576 ≤ content.length := by omega
    refine ⟨?_, ?_, ?_, ?_, ?_, fun h => absurd h hsz2, ?_, ?_⟩
    · rw [strReplaceFS, if_pos hsz]
      cases hr : strReplaceSmall content old0 new0 with
      | error e => rfl
      | ok pr =>
        obtain ⟨n, snap⟩ := pr
        cases ioFail <;> rfl
    · rw [insertFS]
      cases hr : insertContent content k t with
      | error e => rfl
      | ok pr =>
        obtain ⟨n, snap⟩ := pr
        cases ioFail <;> rfl
    · cases hr : strReplaceSmall content old0 new0 with
      | error e =>
        intro _
        rw [strReplaceFS, if_pos hsz, hr]
      | ok pr => exact True.intro
    · cases hr : strReplaceLarge W content old0 new0 with
      | error e => exact fun h => absurd h hsz2
      | ok pr => exact True.intro
    · cases hr : insertContent content k t with
      | error e => rw [insertFS, hr]
      | ok pr => exact True.intro
    · cases hr : strReplaceSmall content old0 new0 with
      | error e => exact True.intro
      | ok pr =>
        obtain ⟨n, snap⟩ := pr
        cases ioFail with
        | none => exact True.intro
        | some j =>
          intro _
          rw [strReplaceFS, if_pos hsz, hr]
          rfl
    · cases hr : insertContent content k t with
      | error e => exact True.intro
      | ok pr =>
        obtain ⟨n, snap⟩ := pr
        cases ioFail with
        | none => exact True.intro
        | some j =>
          rw [insertFS, hr]
          rfl
  · have hsz2 : 1048576 ≤ content.length := by omega
    refine ⟨?_, ?_, ?_, ?_, ?_, ?_, ?_, ?_⟩
    · rw [strReplaceFS, if_neg hsz]
      cases hr : strReplaceLarge W content old0 new0 with
      | error e => rfl
      | ok pr =>
        obtain ⟨n, snap⟩ := pr
        cases ioFail <;> rfl
    · rw [insertFS]
      cases hr : insertContent content k t with
      | error e => rfl
      | ok pr =>
        obtain ⟨n, snap⟩ := pr
        cases ioFail <;> rfl
    · cases hr : strReplaceSmall content old0 new0 with
      | error e => exact fun h => absurd h hsz
      | ok pr => exact True.intro
    · cases hr : strReplaceLarge W content old0 new0 with
      | error e =>
        intro _
        rw [strReplaceFS, if_neg hsz, hr]
      | ok pr => exact True.intro
    · cases hr : insertContent content k t with
      | error e =>
        rw [insertFS, hr]
      | ok pr => exact True.intro
    · intro _
      rw [strReplaceFS, if_neg hsz]
      cases hr : strReplaceLarge W content old0 new0 with
      | error e => rfl
      | ok pr =>
        obtain ⟨n, snap⟩ := pr
        cases ioFail with
        | none => exact True.intro
        | some j => rfl
    · cases hr : strReplaceSmall content old0 new0 with
      | error e => exact True.intro
      | ok pr =>
        obtain ⟨n, snap⟩ := pr
        cases ioFail with
        | none => exact True.intro
        | some j => exact fun h => absurd h hsz
    · cases hr : insertContent content k t with
      | error e => exact True.intro
      | ok pr =>
        obtain ⟨n, snap⟩ := pr
        cases ioFail with
        | none => exact True.intro
        | some j =>
          rw [insertFS, hr]
          rfl

/-- Pushing a snapshot onto one path's stack, seen from every path. -/
theorem histGet_set_push (files2 : List (FPath × Str)) (s : EditorState) (p : FPath) (v : Str) :
    ∀ q, histGet ⟨files2, setA s.hist p (v :: histGet s p)⟩ q
      = if q = p then v :: histGet s q else histGet s q := by
  intro q
  rw [histGet_set]
  by_cases hq : q = p
  · subst hq; simp
  · simp [hq]

/-! ### Claim C8 -/

/-- C8: in any editor state, a failing command leaves the whole state
(files and history) unchanged; a successful view pushes nothing; a
successful create, str_replace or insert pushes exactly one snapshot onto
exactly the addressed path's stack; a successful undo_edit requires a
non-empty stack and removes exactly the most recently pushed snapshot;
and undo_edit succeeds exactly when the path exists and its stack is
non-empty. -/
theorem c8_history_discipline (W : Nat) (s : EditorState) (c : Cmd) :
    (match step W s c with
     | .error (s2, _) => s2 = s
     | .ok (s2, _) =>
       match c with
       | .view _ _ => ∀ q, histGet s2 q = histGet s q
       | .create p t => ∀ q, histGet s2 q = if q = p then t :: histGet s q else histGet s q
       | .strReplace p _ _ =>
           ∃ snap, ∀ q, histGet s2 q = if q = p then snap :: histGet s q else histGet s q
       | .insert p _ _ =>
           ∃ snap, ∀ q, histGet s2 q = if q = p then snap :: histGet s q else histGet s q
       | .undo p => histGet s p ≠ [] ∧
           ∀ q, histGet s2 q = if q = p then (histGet s p).tail else histGet s q) ∧
    (∀ p, stepOk (step W s (.undo p)) =
      ((lookupA s.files p).isSome && !(histGet s p).isEmpty)) := by
  constructor
  · cases hstep : step W s c with
    | error pr =>
      obtain ⟨s2, e⟩ := pr
      exact step_error_eq W s c s2 e hstep
    | ok pr =>
      obtain ⟨s2, r⟩ := pr
      cases c with
      | view p range? =>
        simp only [step] at hstep
        cases hl : lookupA s.files p with
        | none => rw [hl] at hstep; dsimp only at hstep; simp at hstep
        | some content =>
          rw [hl] at hstep
          dsimp only at hstep
          cases hv : viewFile content range? with
          | error e2 => rw [hv] at hstep; dsimp only at hstep; simp at hstep
          | ok out =>
            rw [hv] at hstep
            dsimp only at hstep
            simp only [Except.ok.injEq, Prod.mk.injEq] at hstep
            dsimp only
            intro q
            rw [← hstep.1]
      | create p t =>
        simp only [step] at hstep
        cases hl : lookupA s.files p with
        | some content => rw [hl] at hstep; dsimp only at hstep; simp at hstep
        | none =>
          rw [hl] at hstep
          dsimp only at hstep
          simp only [Except.ok.injEq, Prod.mk.injEq] at hstep
          dsimp only
          rw [← hstep.1]
          exact histGet_set_push _ s p t
      | strReplace p old new? =>
        simp only [step] at hstep
        cases hl : lookupA s.files p with
        | none => rw [hl] at hstep; dsimp only at hstep; simp at hstep
        | some content =>
          rw [hl] at hstep
          dsimp only at hstep
          by_cases hn : new? = some old
          · rw [if_pos hn] at hstep; simp at hstep
          · rw [if_neg hn] at hstep
            cases hr : (if content.length < 1048576
                then strReplaceSmall content old (new?.getD [])
                else strReplaceLarge W content old (new?.getD [])) with
            | error e2 => rw [hr] at hstep; dsimp only at hstep; simp at hstep
            | ok pr2 =>
              obtain ⟨n, snap⟩ := pr2
              rw [hr] at hstep
              dsimp only at hstep
              simp only [Except.ok.injEq, Prod.mk.injEq] at hstep
              dsimp only
              rw [← hstep.1]
              exact ⟨snap, histGet_set_push _ s p snap⟩
      | insert p k t =>
        simp only [step] at hstep
        cases hl : lookupA s.files p with
        | none => rw [hl] at hstep; dsimp only at hstep; simp at hstep
        | some content =>
          rw [hl] at hstep
          dsimp only at hstep
          cases hr : insertContent content k t with
          | error e2 => rw [hr] at hstep; dsimp only at hstep; simp at hstep
          | ok pr2 =>
            obtain ⟨n, snap⟩ := pr2
            rw [hr] at hstep
            dsimp only at hstep
            simp only [Except.ok.injEq, Prod.mk.injEq] at hstep
            dsimp only
            rw [← hstep.1]
            exact ⟨snap, histGet_set_push _ s p snap⟩
      | undo p =>
        simp only [step] at hstep
        cases hl : lookupA s.files p with
        | none => rw [hl] at hstep; dsimp only at hstep; simp at hstep
        | some content =>
          rw [hl] at hstep
          dsimp only at hstep
          cases hh : histGet s p with
          | nil => rw [hh] at hstep; dsimp only at hstep; simp at hstep
          | cons prev rest =>
            rw [hh] at hstep
            dsimp only at hstep
            simp only [Except.ok.injEq, Prod.mk.injEq] at hstep
            dsimp only
            refine ⟨by rw [hh]; simp, ?_⟩
            intro q
            rw [← hstep.1]
            rw [histGet_set _ s p rest q, hh, List.tail_cons]
  · intro p
    simp only [step]
    cases hl : lookupA s.files p with
    | none => simp [stepOk]
    | some content =>
      dsimp only
      cases hh : histGet s p with
      | nil => simp [stepOk]
      | cons prev rest => simp [stepOk]

/-! ### Claim C9 -/

/-- C9: from any reachable editor state in which the path has no file,
create writes file_text verbatim, reports prev_exist = false with
new_content equal to file_text, pushes file_text itself as the sole
history entry for that path, and an immediately following undo_edit
succeeds, leaving the file present with content identical to file_text. -/
theorem c9_create_then_undo (W : Nat) (cmds : List Cmd) (p : FPath) (t : Str)
    (habs : lookupA (runCmds W cmds).files p = none) :
    match step W (runCmds W cmds) (.create p t) with
    | .error _ => False
    | .ok (s2, r) =>
        r.prevExist = false ∧ r.newContent = some t ∧
        lookupA s2.files p = some t ∧ histGet s2 p = [t] ∧
        (match step W s2 (.undo p) with
         | .error _ => False
         | .ok (s3, r2) => lookupA s3.files p = some t ∧ r2.newContent = some t) := by
  have hhist : histGet (runCmds W cmds) p = [] := fhInv_runCmds W cmds p habs
  simp only [step, habs]
  have hfile2 : lookupA (setA (runCmds W cmds).files p t) p = some t := by
    rw [lookupA_setA, if_pos rfl]
  have hhist2 : histGet ⟨setA (runCmds W cmds).files p t,
      setA (runCmds W cmds).hist p (t :: histGet (runCmds W cmds) p)⟩ p = [t] := by
    rw [histGet_set _ (runCmds W cmds) p _ p, if_pos rfl, hhist]
  refine ⟨trivial, trivial, hfile2, hhist2, ?_⟩
  rw [hfile2, hhist2]
  refine ⟨?_, rfl⟩
  rw [lookupA_setA, if_pos rfl]

/-- C9 witness: the concrete instance on the empty command history, path
0 and the two-character file text hi. -/
theorem c9_create_then_undo_witness :
    lookupA (runCmds 4 []).files 0 = none ∧
    (match step 4 (runCmds 4 []) (.create 0 ['h', 'i']) with
     | .error _ => False
     | .ok (s2, r) =>
        r.prevExist = false ∧ r.newContent = some ['h', 'i'] ∧
        lookupA s2.files 0 = some ['h', 'i'] ∧ histGet s2 0 = [['h', 'i']] ∧
        (match step 4 s2 (.undo 0) with
         | .error _ => False
         | .ok (s3, r2) =>
            lookupA s3.files 0 = some ['h', 'i'] ∧ r2.newContent = some ['h', 'i'])) :=
  ⟨rfl, c9_create_then_undo 4 [] 0 ['h', 'i'] rfl⟩

/-! ### Claim C1 -/

/-- C1: the history snapshot pushed by the streaming (large-file)
str_replace branch is only the tab-expanded window of lines around the
occurrence (here lines 2 to 10 of the 12-line file), and undo_edit
writes that snapshot back as the entire file, so the file after undo is
the nine-line window alone, not the twelve-line pre-edit content. -/
theorem c1_undo_after_streaming_replace :
    strReplaceLarge 4 c1content ['f', 'o', 'o'] ['b', 'a', 'r'] = .ok (c1new, c1snap) ∧
    c1snap = expandtabs (readLines c1content 2 (some 10)) ∧
    ¬ c1snap = c1content ∧
    step 4 ⟨[(0, c1new)], [(0, [c1snap])]⟩ (.undo 0) =
      .ok (⟨[(0, c1snap)], [(0, [])]⟩, ⟨true, some c1new, some c1snap⟩) := by
  decide

/-! ### Claim C2 -/

/-- C2: on the 1000-line file whose unique needle occurrence sits on line
1000 (inside the overlap retained after the first full chunk), the
streaming chunked scan reports the occurrence twice while the
whole-content scan reports it once; consequently the streaming
str_replace rejects the edit as ambiguous with line list [1000, 1000]
while the small-file branch on the same content succeeds. -/
theorem c2_streaming_double_count :
    streamScan c2lines ['x'] = [1000, 1000] ∧
    occLines c2content ['x'] = [1000] ∧
    strReplaceLarge 4 c2content ['x'] ['y'] = .error (.ambiguous [1000, 1000]) ∧
    stepOk (strReplaceSmall c2content ['x'] ['y']) = true :=
  ⟨streamScan_c2, occLines_c2, strReplaceLarge_c2 4, strReplaceSmall_c2_ok⟩

end OHEditorModel
